import Mathlib

/-!
Verification development for the TUAB BIDS conversion scripts
(`scripts/00_bidsify_tuab.ipynb` and the companion processing/benchmark
notebooks).  The Python code is shallowly embedded: pure helper functions
become Lean functions on `List Char` / `Nat`, pandas data frames become
lists of records, and Python exceptions become `Except Err`.  External
collaborators (EDF readers, MNE raw objects, the BIDS writer, the dask
cluster) are not modelled; only the data that the scripts derive from them
(recording dates, header text) appears as explicit inputs.
-/

namespace TUAB

abbrev Str := List Char

/-! ### Decimal rendering, a model of Python `str(n)` and `str.zfill(w)` -/

/-- Digits of `n` in decimal, most significant first, computed with explicit
fuel so that the recursion is structural.  `natDecAux n n` agrees with the
digit string of Python `str(n)` for `n > 0`. -/
def natDecAux : Nat → Nat → List Char
  | 0, _ => []
  | fuel + 1, n => if n = 0 then [] else natDecAux fuel (n / 10) ++ [Nat.digitChar (n % 10)]

/-- Python `str(n)` for a natural number. -/
def natDec (n : Nat) : List Char :=
  if n = 0 then ['0'] else natDecAux n n

/-- Python `str.zfill(w)`: left-pad with the character zero up to width `w`. -/
def zfill (w : Nat) (l : List Char) : List Char :=
  List.replicate (w - l.length) '0' ++ l

/-- Decimal value of a digit string (left fold); inverse of `natDec` used to
prove that zero-padded identifiers are collision-free. -/
def parseAcc (a : Nat) : List Char → Nat
  | [] => a
  | c :: cs => parseAcc (a * 10 + (c.toNat - 48)) cs

/-! ### String helpers: Python `in`, `str.replace`, `str.split` -/

/-- Python substring test `pat in s`. -/
def containsSub (pat : Str) : Str → Bool
  | [] => pat.isEmpty
  | c :: cs => pat.isPrefixOf (c :: cs) || containsSub pat cs

/-- Python `s.replace(pat, rep)` with explicit fuel (one unit per scan step):
leftmost, non-overlapping occurrences are replaced.  For nonempty `pat`,
`replaceAll pat rep s` uses fuel `s.length`, which is always sufficient. -/
def replaceAllAux (pat rep : Str) : Nat → Str → Str
  | 0, l => l
  | _ + 1, [] => []
  | fuel + 1, c :: cs =>
    if pat.isPrefixOf (c :: cs) then
      rep ++ replaceAllAux pat rep fuel (List.drop pat.length (c :: cs))
    else c :: replaceAllAux pat rep fuel cs

def replaceAll (pat rep s : Str) : Str := replaceAllAux pat rep s.length s

def strContains (s pat : String) : Bool := containsSub pat.data s.data

def strReplace (s pat rep : String) : String := String.mk (replaceAll pat.data rep.data s.data)

/-- Python `s.split(sep)` for a single-character separator. -/
def splitOnChar (sep : Char) : Str → List Str
  | [] => [[]]
  | c :: cs =>
    let r := splitOnChar sep cs
    if c = sep then [] :: r
    else
      match r with
      | [] => [[c]]
      | h :: t => (c :: h) :: t

/-! ### `rename_tuh_channels` -/

/-- Embedding of `rename_tuh_channels` from `00_bidsify_tuab.ipynb`:
strip the prefix `EEG ` (with space) and the suffix `-REF`, rewrite `FP` to
`Fp` and `Z` to `z` (all occurrences, Python `str.replace`), but only when
the name contains `EEG`; names whose rewritten form lands in the exclusion
list `LOC`, `ROC`, `EKG1` are returned as the original input. -/
def rename_tuh_channels (ch_name : String) : String :=
  let exclude : List String := ["LOC", "ROC", "EKG1"]
  let out :=
    if strContains ch_name "EEG" then
      let o1 := strReplace (strReplace ch_name "EEG " "") "-REF" ""
      strReplace (strReplace o1 "FP" "Fp") "Z" "z"
    else ch_name
  if out ∈ exclude then ch_name else out

/-! ### The regular-expression scans used by the scripts

`re.findall` scans left to right and collects non-overlapping matches; each
scanner below advances one character on failure and past the whole match on
success, exactly as the Python regex engine does on these patterns. -/

/-- `\w` on the ASCII inputs these scripts see. -/
def isWordChar (c : Char) : Bool := c.isAlpha || c.isDigit || c = '_'

/-- `re.findall(r'\_tcp\_(\w\w)', path)`: the captured two-character groups. -/
def findTcpAux : Nat → Str → List (Char × Char)
  | 0, _ => []
  | fuel + 1, l =>
    match l with
    | '_' :: 't' :: 'c' :: 'p' :: '_' :: a :: b :: rest =>
      if isWordChar a && isWordChar b then (a, b) :: findTcpAux fuel rest
      else findTcpAux fuel l.tail
    | _ :: cs => findTcpAux fuel cs
    | [] => []

def findTcp (l : Str) : List (Char × Char) := findTcpAux l.length l

/-- Maximal leading run of decimal digits (`\d+` is greedy). -/
def leadDigits : Str → Str
  | [] => []
  | c :: cs => if c.isDigit then c :: leadDigits cs else []

/-- Remainder of the string after the maximal leading digit run. -/
def afterDigits : Str → Str
  | [] => []
  | c :: cs => if c.isDigit then afterDigits cs else c :: cs

/-- `re.findall(r'Age:(\d+)', s)`, with each captured digit group already
converted to its numeric value (the script applies `int` to the capture). -/
def findAgesAux : Nat → Str → List Nat
  | 0, _ => []
  | fuel + 1, l =>
    match l with
    | 'A' :: 'g' :: 'e' :: ':' :: rest =>
      if (leadDigits rest).isEmpty then findAgesAux fuel l.tail
      else parseAcc 0 (leadDigits rest) :: findAgesAux fuel (afterDigits rest)
    | _ :: cs => findAgesAux fuel cs
    | [] => []

def findAges (l : Str) : List Nat := findAgesAux l.length l

/-- `\s` on the ASCII inputs these scripts see. -/
def isSpaceChar (c : Char) : Bool :=
  c = ' ' || c = '\t' || c = '\n' || c = '\r' || c = '\x0b' || c = '\x0c'

/-- The character class `[F|M]` of the gender pattern.  Note that it contains
the literal bar character, not only `F` and `M`. -/
def isClassFM (c : Char) : Bool := c = 'F' || c = '|' || c = 'M'

/-- `re.findall(r'\s([F|M])\s', s)`: the captured middle characters.  A match
consumes all three characters, so two tokens sharing one whitespace
character yield a single match. -/
def findGendersAux : Nat → Str → List Char
  | 0, _ => []
  | fuel + 1, l =>
    match l with
    | a :: b :: c :: rest =>
      if isSpaceChar a && isClassFM b && isSpaceChar c then b :: findGendersAux fuel rest
      else findGendersAux fuel (b :: c :: rest)
    | _ => []

def findGenders (l : Str) : List Char := findGendersAux l.length l

/-- Embedding of `_parse_age_and_gender_from_edf_header`.  Reading the first
88 header bytes and ASCII-decoding bytes 8..88 is external I/O; the decoded
patient-identification field is the input here.  Age defaults to `-1` and
gender to `X` unless the respective scan finds exactly one match. -/
def parse_age_and_gender_from_edf_header (patient_id : String) : Int × Char :=
  let found_age := findAges patient_id.data
  let age : Int := if found_age.length = 1 then (found_age.headD 0 : Int) else -1
  let found_gender := findGenders patient_id.data
  let gender : Char := if found_gender.length = 1 then found_gender.headD 'X' else 'X'
  (age, gender)


/-- The shape shared by the Python for-loops that build a list while any
iteration may raise: evaluate left to right, keep the first failure. -/
def mapExcept {α β ε : Type} (g : α → Except ε β) : List α → Except ε (List β)
  | [] => .ok []
  | a :: l => do
    let b ← g a
    let bs ← mapExcept g l
    pure (b :: bs)

/-! ### Failure taxonomy

Python exceptions raised (or raisable) by the embedded code.  `keyError`
stands for indexing a data frame with an unknown label,
`ambiguousTruthValue` for numpy's `ValueError` on `if array` when the
comparison array has more than one element, and `sexKeyError` for the
`SEX_TO_MNE[sex]` lookup miss. -/
inductive Err where
  | malformedIdentity
  | badSessionNumber
  | badSegmentNumber
  | keyError
  | refSchemeCount
  | unknownReferenceScheme
  | splitFileMergeNotImplemented
  | ambiguousTruthValue
  | sexKeyError
  deriving DecidableEq, Repr

deriving instance DecidableEq for Except

/-! ### Recording descriptors and the chronological index -/

/-- Input to `_parse_description_from_file_path`: the file path plus the
recording date that `_get_info` (an external EDF header probe) reports. -/
structure FileInfo where
  path : String
  year : Nat
  month : Nat
  day : Nat
  deriving DecidableEq, Repr

/-- One row of the index data frame built by the first (fast) loop. -/
structure Desc where
  path : String
  subject : String
  session : Nat
  segment : Nat
  year : Nat
  month : Nat
  day : Nat
  deriving DecidableEq, Repr

/-- Python `int(...)` on the digit strings these filenames contain. -/
def parseNatDigits (l : Str) : Option Nat :=
  if !l.isEmpty && l.all (·.isDigit) then some (parseAcc 0 l) else none

/-- Embedding of `_parse_description_from_file_path`: split the path on the
separator, strip `.edf` from the final component, split the stem on the
underscore and demand exactly three tokens, then parse the numeric parts of
the session and segment tokens (dropping their one-letter tag). -/
def fileStem (fi : FileInfo) : Str :=
  replaceAll ".edf".data [] ((splitOnChar '/' fi.path.data).getLastD [])

def fileTokens (fi : FileInfo) : List Str := splitOnChar '_' (fileStem fi)

def parse_description_from_file_path (fi : FileInfo) : Except Err Desc :=
  match fileTokens fi with
  | [subject_id, session, segment] =>
    match parseNatDigits (session.drop 1) with
    | none => .error .badSessionNumber
    | some sess =>
      match parseNatDigits (segment.drop 1) with
      | none => .error .badSegmentNumber
      | some seg =>
        .ok { path := fi.path, subject := String.mk subject_id, session := sess,
              segment := seg, year := fi.year, month := fi.month, day := fi.day }
  | _ => .error .malformedIdentity

/-- The multi-column sort key of `descriptions.sort_values([...])`: subject,
session, segment, year, month, day, compared lexicographically. -/
abbrev SortKey := Str ×ₗ (Nat ×ₗ (Nat ×ₗ (Nat ×ₗ (Nat ×ₗ Nat))))

def sortKey (d : Desc) : SortKey :=
  toLex (d.subject.data, toLex (d.session, toLex (d.segment,
    toLex (d.year, toLex (d.month, d.day)))))

def descRel (a b : Desc) : Prop := sortKey a ≤ sortKey b

instance : DecidableRel descRel := fun a b => inferInstanceAs (Decidable (sortKey a ≤ sortKey b))

instance : IsTotal Desc descRel := ⟨fun a b => le_total (sortKey a) (sortKey b)⟩

instance : IsTrans Desc descRel := ⟨fun _ _ _ h1 h2 => le_trans h1 h2⟩

/-- Embedding of `_create_chronological_description`: parse every file into a
descriptor (the first loop), then sort by the six-column key.  A multi-column
pandas `sort_values` is a stable lexicographic sort, rendered here with
`List.insertionSort`, which is stable.  Any parse failure propagates and
aborts the whole scan, as the Python loop has no handler. -/
def create_chronological_description (files : List FileInfo) : Except Err (List Desc) := do
  let descs ← mapExcept parse_description_from_file_path files
  pure (descs.insertionSort descRel)

/-- The `descriptions[recording_ids]` column selection of `TUH.__init__`:
labels after the reset are the positions `0..n-1` in sorted order, selected
in the order given; an unknown label raises. -/
def selectRecordings (descs : List Desc) (ids : List Nat) : Except Err (List Desc) :=
  mapExcept (fun i =>
    match descs.get? i with
    | some d => .ok d
    | none => .error .keyError) ids

/-- Embedding of the indexing part of `TUH.__init__`: build the sorted index,
then (optionally) restrict to `recording_ids`.  The slow per-recording loop
(`_create_dataset`) runs only on the rows this returns. -/
def tuh_init (files : List FileInfo) (recording_ids : Option (List Nat)) :
    Except Err (List Desc) := do
  let descs ← create_chronological_description files
  match recording_ids with
  | none => pure descs
  | some ids => selectRecordings descs ids




/-! ### The convert phase: `run_tuab_bidsification` and `convert_tuab_to_bids` -/

/-- One row of the description frame that `convert_tuab_to_bids` receives,
before `run_tuab_bidsification` replaces subject tokens by dense category
codes: the `TUHAbnormal` description columns plus the age/gender pair that
`_create_dataset` parsed from the EDF header.  The segment is kept as a
string because the split-file collapse rewrites the whole column to the
string `001`. -/
structure PreRow where
  path : String
  subject : String
  session : Nat
  segment : String
  gender : String
  age : Int
  train : Bool
  pathological : Bool
  year : Nat
  month : Nat
  day : Nat
  deriving DecidableEq, Repr

/-- A description row after `run_tuab_bidsification` replaced the subject
token by its dense category code and stored the raw token in
`subject_orig`. -/
structure DRow where
  path : String
  subject : Nat
  subject_orig : String
  session : Nat
  segment : String
  gender : String
  age : Int
  train : Bool
  pathological : Bool
  year : Nat
  month : Nat
  day : Nat
  deriving DecidableEq, Repr

def strLe (a b : String) : Prop := a.data ≤ b.data

instance : DecidableRel strLe := fun a b => inferInstanceAs (Decidable (a.data ≤ b.data))

/-- `description.subject.astype('category').cat.codes`: the distinct raw
tokens, sorted, receive codes `0..k-1`; each row maps to its token's code. -/
def categoryCodes (subjects : List String) : List Nat :=
  let cats := subjects.dedup.insertionSort strLe
  subjects.map fun s => cats.indexOf s

/-- The subject/`subject_orig` rewrite of `run_tuab_bidsification`. -/
def applyCodes (rows : List PreRow) : List DRow :=
  let codes := categoryCodes (rows.map (·.subject))
  rows.zipWith
    (fun r c =>
      { path := r.path, subject := c, subject_orig := r.subject, session := r.session,
        segment := r.segment, gender := r.gender, age := r.age, train := r.train,
        pathological := r.pathological, year := r.year, month := r.month, day := r.day })
    codes

/-- State-passing rendition of the session reset
`description.groupby('subject')['session'].transform(lambda x: np.arange(len(x)) + 1)`:
the i-th row of each subject, in frame order, receives session `i + 1`;
`cnt` counts the rows of each subject already passed. -/
def reindexGo (cnt : Nat → Nat) : List DRow → List DRow
  | [] => []
  | r :: rs =>
    { r with session := cnt r.subject + 1 } ::
      reindexGo (fun s => if s = r.subject then cnt s + 1 else cnt s) rs

def reindexSessions (rows : List DRow) : List DRow := reindexGo (fun _ => 0) rows

def rowKey (r : DRow) : Nat × Nat := (r.subject, r.session)

/-- The distinct `(subject, session)` group keys (`dedup` keeps each key's
last occurrence; the key order is immaterial to the uniqueness check). -/
def groupKeys (rows : List DRow) : List (Nat × Nat) := (rows.map rowKey).dedup

def groupSize (rows : List DRow) (k : Nat × Nat) : Nat :=
  (rows.filter fun r => rowKey r == k).length

def groupSizes (rows : List DRow) : List Nat := (groupKeys rows).map (groupSize rows)

/-- Embedding of the `concat_split_files` branch of `convert_tuab_to_bids`.
The script evaluates `if n_segments_per_session.unique() != np.array([1])`,
an elementwise numpy comparison: with exactly one distinct group size `k`
the condition is the one-element array `[k ≠ 1]`, so `NotImplementedError`
is raised when `k ≠ 1` and otherwise every segment id is rewritten to the
string `001`; with two or more distinct sizes the `if` itself raises
numpy's ambiguous-truth-value `ValueError`.  An empty frame yields an empty
comparison array, which is falsy under legacy numpy truthiness, and the
collapse is then a no-op. -/
def concatCheck (rows : List DRow) : Except Err (List DRow) :=
  match (groupSizes rows).dedup with
  | [] => .ok rows
  | [k] =>
    if k = 1 then .ok (rows.map fun r => { r with segment := "001" })
    else .error .splitFileMergeNotImplemented
  | _ => .error .ambiguousTruthValue

/-- The summary dictionary `_convert_tuh_recording_to_bids` returns:
`subject_info` merged with the measurement date and the `session` field of
the row the converter was given. -/
structure Summary where
  participant_id : Str
  subject_orig : String
  sexCode : Nat
  train : Bool
  pathological : Bool
  meas_year : Nat
  meas_month : Nat
  meas_day : Nat
  session : Nat
  deriving DecidableEq, Repr

/-- `SEX_TO_MNE = {'n/a': 0, 'm': 1, 'f': 2}`; `none` is a `KeyError`. -/
def SEX_TO_MNE (s : String) : Option Nat :=
  if s = "n/a" then some 0 else if s = "m" then some 1 else if s = "f" then some 2 else none

/-- Python `str.lower` on the ASCII strings these scripts see. -/
def lowerStr (s : String) : String := String.mk (s.data.map Char.toLower)

/-- Embedding of `_convert_tuh_recording_to_bids` for one description row.
Channel picking, montage assignment, the surrogate-birthday synthesis and
the BrainVision write act on the external raw object and are not modelled;
the embedded behaviour is the reference-scheme validation on the path
(`ValueError` unless the `_tcp_..` scan finds exactly one match, which must
be `ar` or `le`), the `SEX_TO_MNE` lookup (a `KeyError` when the lowered
gender is none of `m`, `f`, `n/a`), and the returned summary row.  The
derived output path is `outPath` below. -/
def convert_tuh_recording_to_bids (desc : DRow) : Except Err Summary :=
  match findTcp desc.path.data with
  | [(a, b)] =>
    if (a = 'a' ∧ b = 'r') ∨ (a = 'l' ∧ b = 'e') then
      match SEX_TO_MNE (lowerStr desc.gender) with
      | none => .error .sexKeyError
      | some sex =>
        .ok { participant_id := zfill 4 (natDec desc.subject),
              subject_orig := desc.subject_orig, sexCode := sex, train := desc.train,
              pathological := desc.pathological, meas_year := desc.year,
              meas_month := desc.month, meas_day := desc.day, session := desc.session }
    else .error .unknownReferenceScheme
  | _ => .error .refSchemeCount

/-- The components of the `BIDSPath` a conversion task writes to:
`(root, str(subject).zfill(4), str(session).zfill(3), run = segment)`. -/
def outPath (root : String) (desc : DRow) : String × Str × Str × String :=
  (root, zfill 4 (natDec desc.subject), zfill 3 (natDec desc.session), desc.segment)

/-- The conversion loop of `convert_tuab_to_bids`: one converter call per
row, in frame order, with no exception handler around the loop body. -/
def convertLoop (rows : List DRow) : Except Err (List Summary) :=
  mapExcept convert_tuh_recording_to_bids rows

/-- Embedding of `convert_tuab_to_bids`: optional restriction to healthy
recordings, the split-file uniqueness check, the per-subject session reset,
then the conversion loop.  The returned list is the summary table written
once at the end (`participants_extra.csv`); when any stage or row raises,
the exception propagates and no table is written. -/
def convert_tuab_to_bids (rows : List DRow)
    (healthy_only reset_session_indices concat_split_files : Bool) :
    Except Err (List Summary) := do
  let rows0 := if healthy_only then rows.filter (fun r => !r.pathological) else rows
  let rows1 ← if concat_split_files then concatCheck rows0 else pure rows0
  let rows2 := if reset_session_indices then reindexSessions rows1 else rows1
  convertLoop rows2

/-- The canonical identity assignment of `run_tuab_bidsification` feeding the
converter: dense category codes for subjects, then contiguous per-subject
session numbers.  The split-file collapse only rewrites the segment column
and is independent of these two fields. -/
def canonicalRows (rows : List PreRow) : List DRow := reindexSessions (applyCodes rows)

/-- The output-path components of every conversion task of a run. -/
def bidsPaths (root : String) (rows : List PreRow) : List (String × Str × Str × String) :=
  (canonicalRows rows).map (outPath root)


/-! ### Definitions supporting the age/gender claims -/

/-- Whether the string starts with `Age:` followed by a digit, i.e. whether a
match of `Age:(\\d+)` starts at this position. -/
def hasAgePrefix : Str → Bool
  | 'A' :: 'g' :: 'e' :: ':' :: d :: _ => d.isDigit
  | _ => false

/-- Whether any position of the string starts a match of `Age:(\\d+)`. -/
def hasAgeToken : Str → Bool
  | [] => false
  | c :: cs => hasAgePrefix (c :: cs) || hasAgeToken cs

/-- Stated from the claim's wording, to compare with the code: whether this
position carries a whitespace-surrounded `F` or `M` token (no bar). -/
def specFMAt : Str → Bool
  | a :: b :: c :: _ => isSpaceChar a && (b = 'F' || b = 'M') && isSpaceChar c
  | _ => false

/-- Stated from the claim's wording, to compare with the code: the number of
whitespace-surrounded `F`/`M` tokens, counting overlapping occurrences. -/
def claimedGenderTokenCount : Str → Nat
  | [] => 0
  | c :: cs => (if specFMAt (c :: cs) then 1 else 0) + claimedGenderTokenCount cs

/-- Every upper/lower casing of the names in the exclusion list of
`rename_tuh_channels`. -/
def exclusionCasings : List String :=
  ["LOC", "LOc", "LoC", "Loc", "lOC", "lOc", "loC", "loc",
   "ROC", "ROc", "RoC", "Roc", "rOC", "rOc", "roC", "roc",
   "EKG1", "EKg1", "EkG1", "Ekg1", "eKG1", "eKg1", "ekG1", "ekg1"]

/-! ### Concrete fixtures used by the counterexamples and witnesses -/

/-- A description row as `convert_tuab_to_bids` sees it, with the fields the
embedded converter does not inspect held fixed. -/
def mkDRow (subj : Nat) (tok : String) (sess : Nat) (seg : String)
    (gen : String) (p : String) : DRow :=
  { path := p, subject := subj, subject_orig := tok, session := sess, segment := seg,
    gender := gen, age := 34, train := true, pathological := false,
    year := 2015, month := 1, day := 1 }

/-- A corpus where the `(subject 0, session 1)` group holds two distinct
segments while subject 1 has a single-segment session. -/
def c2rows : List DRow :=
  [mkDRow 0 "aaa" 1 "0" "M" "edf/train/normal/01_tcp_ar/aaa_s001_t000.edf",
   mkDRow 0 "aaa" 1 "1" "M" "edf/train/normal/01_tcp_ar/aaa_s001_t001.edf",
   mkDRow 1 "bbb" 1 "0" "M" "edf/train/normal/01_tcp_ar/bbb_s001_t000.edf"]

/-- A corpus where every `(subject, session)` group holds the same two
distinct segments, so the distinct group sizes form the single value 2. -/
def uniformSplitRows : List DRow :=
  [mkDRow 0 "aaa" 1 "0" "M" "edf/train/normal/01_tcp_ar/aaa_s001_t000.edf",
   mkDRow 0 "aaa" 1 "1" "M" "edf/train/normal/01_tcp_ar/aaa_s001_t001.edf",
   mkDRow 1 "bbb" 1 "0" "M" "edf/train/normal/01_tcp_ar/bbb_s001_t000.edf",
   mkDRow 1 "bbb" 1 "1" "M" "edf/train/normal/01_tcp_ar/bbb_s001_t001.edf"]

/-- A corpus where every `(subject, session)` group has exactly one segment. -/
def goodRows : List DRow :=
  [mkDRow 0 "aaa" 1 "0" "M" "edf/train/normal/01_tcp_ar/aaa_s001_t000.edf",
   mkDRow 1 "bbb" 1 "0" "F" "edf/train/normal/01_tcp_ar/bbb_s001_t000.edf"]

/-- A recording whose path carries the unrecognized token `_tcp_xx`. -/
def badRefRow : DRow :=
  mkDRow 0 "aaa" 1 "0" "M" "edf/train/normal/01_tcp_xx/aaa_s001_t000.edf"

/-- A recording that converts cleanly. -/
def goodRow : DRow :=
  mkDRow 1 "bbb" 1 "0" "F" "edf/train/normal/01_tcp_ar/bbb_s001_t000.edf"

/-- One subject whose chronological sessions are numbered 3 and 7. -/
def twoSessions : List DRow :=
  [mkDRow 0 "aaa" 3 "0" "M" "edf/train/normal/01_tcp_ar/aaa_s003_t000.edf",
   mkDRow 0 "aaa" 7 "0" "M" "edf/train/normal/01_tcp_ar/aaa_s007_t000.edf"]

/-- The summary table `convert_tuab_to_bids` produces for `twoSessions`. -/
def twoSessionsSummary : List Summary :=
  [{ participant_id := "0000".data, subject_orig := "aaa", sexCode := 1, train := true,
     pathological := false, meas_year := 2015, meas_month := 1, meas_day := 1, session := 1 },
   { participant_id := "0000".data, subject_orig := "aaa", sexCode := 1, train := true,
     pathological := false, meas_year := 2015, meas_month := 1, meas_day := 1, session := 2 }]

/-- Two raw files with distinct sort keys, `exFa` chronologically first. -/
def exFa : FileInfo :=
  { path := "edf/train/normal/01_tcp_ar/aaa_s001_t000.edf", year := 2014, month := 1, day := 1 }

def exFb : FileInfo :=
  { path := "edf/train/normal/01_tcp_ar/bbb_s001_t000.edf", year := 2015, month := 2, day := 2 }

def exDa : Desc :=
  { path := "edf/train/normal/01_tcp_ar/aaa_s001_t000.edf", subject := "aaa",
    session := 1, segment := 0, year := 2014, month := 1, day := 1 }

def exDb : Desc :=
  { path := "edf/train/normal/01_tcp_ar/bbb_s001_t000.edf", subject := "bbb",
    session := 1, segment := 0, year := 2015, month := 2, day := 2 }

/-- Two raw files with identical six-column sort keys but distinct paths; the
`eval` path is lexicographically smaller than the `train` path. -/
def fTrain : FileInfo :=
  { path := "edf/train/normal/01_tcp_ar/aaa_s001_t000.edf", year := 2015, month := 1, day := 1 }

def fEval : FileInfo :=
  { path := "edf/eval/normal/01_tcp_ar/aaa_s001_t000.edf", year := 2015, month := 1, day := 1 }

def dTrain : Desc :=
  { path := "edf/train/normal/01_tcp_ar/aaa_s001_t000.edf", subject := "aaa",
    session := 1, segment := 0, year := 2015, month := 1, day := 1 }

def dEval : Desc :=
  { path := "edf/eval/normal/01_tcp_ar/aaa_s001_t000.edf", subject := "aaa",
    session := 1, segment := 0, year := 2015, month := 1, day := 1 }

/-- A file whose stem `aaa_s001` splits into two tokens, not three. -/
def fBadTok : FileInfo :=
  { path := "edf/train/normal/01_tcp_ar/aaa_s001.edf", year := 2015, month := 1, day := 1 }

/-- A pre-canonicalization row for the path-collision claim. -/
def mkPreRow (tok : String) (sess : Nat) (p : String) : PreRow :=
  { path := p, subject := tok, session := sess, segment := "0", gender := "M", age := 34,
    train := true, pathological := false, year := 2015, month := 1, day := 1 }

/-- Two recordings of one subject. -/
def prSameSubject : List PreRow :=
  [mkPreRow "aaa" 3 "edf/train/normal/01_tcp_ar/aaa_s003_t000.edf",
   mkPreRow "aaa" 7 "edf/train/normal/01_tcp_ar/aaa_s007_t000.edf"]

/-- Two subjects whose raw tokens differ only in a zero-padding-like way. -/
def prTwoSubjects : List PreRow :=
  [mkPreRow "012" 1 "edf/train/normal/01_tcp_ar/012_s001_t000.edf",
   mkPreRow "0012" 1 "edf/train/normal/01_tcp_ar/0012_s001_t000.edf"]

/-! ### Helper lemmas -/

theorem mapExcept_nil {α β ε : Type} (g : α → Except ε β) : mapExcept g [] = .ok [] := rfl

theorem mapExcept_cons {α β ε : Type} (g : α → Except ε β) (a : α) (l : List α) :
    mapExcept g (a :: l) =
      (g a).bind fun b => (mapExcept g l).bind fun bs => .ok (b :: bs) := rfl

theorem mapExcept_isOk_false {α β ε : Type} (g : α → Except ε β) :
    ∀ (l : List α), (∃ a ∈ l, (g a).isOk = false) → (mapExcept g l).isOk = false := by
  intro l
  induction l with
  | nil => rintro ⟨a, ha, -⟩; cases ha
  | cons x xs ih =>
    rintro ⟨a, ha, hbad⟩
    rw [mapExcept_cons]
    cases hx : g x with
    | error e => simp [Except.bind, Except.isOk, Except.toBool]
    | ok b =>
      simp only [Except.bind]
      rcases List.mem_cons.mp ha with rfl | hmem
      · rw [hx] at hbad
        simp [Except.isOk, Except.toBool] at hbad
      · have hxs := ih ⟨a, hmem, hbad⟩
        cases hm : mapExcept g xs with
        | error e => simp [Except.isOk, Except.toBool]
        | ok bs =>
          rw [hm] at hxs
          simp [Except.isOk, Except.toBool] at hxs

theorem mapExcept_ok_of_forall {α β ε : Type} (g : α → Except ε β) :
    ∀ (l : List α), (∀ a ∈ l, (g a).isOk = true) →
      ∃ bs, mapExcept g l = .ok bs ∧ bs.length = l.length := by
  intro l
  induction l with
  | nil => intro h; exact ⟨[], rfl, rfl⟩
  | cons x xs ih =>
    intro h
    have hx := h x (List.mem_cons_self x xs)
    cases hgx : g x with
    | error e =>
      rw [hgx] at hx
      simp [Except.isOk, Except.toBool] at hx
    | ok b =>
      obtain ⟨bs, hbs, hlen⟩ := ih fun a ha => h a (List.mem_cons_of_mem _ ha)
      refine ⟨b :: bs, ?_, by simp [hlen]⟩
      rw [mapExcept_cons, hgx, hbs]
      rfl

theorem dedup_all_const (c : Nat) : ∀ (l : List Nat), l ≠ [] → (∀ x ∈ l, x = c) →
    l.dedup = [c] := by
  intro l
  induction l with
  | nil => intro h; cases h rfl
  | cons a t ih =>
    intro _ hall
    have ha : a = c := hall a (List.mem_cons_self a t)
    subst ha
    cases t with
    | nil => rw [List.dedup_cons_of_not_mem (by simp), List.dedup_nil]
    | cons b t2 =>
      have hb : b = a := hall b (by simp)
      have ht := ih (by simp) fun x hx => hall x (List.mem_cons_of_mem _ hx)
      rw [List.dedup_cons_of_mem (by simp [hb]), ht]

theorem reindexGo_length (rows : List DRow) :
    ∀ (cnt : Nat → Nat), (reindexGo cnt rows).length = rows.length := by
  induction rows with
  | nil => intro cnt; rfl
  | cons r rs ih => intro cnt; simp [reindexGo, ih]

theorem reindexSessions_length (rows : List DRow) :
    (reindexSessions rows).length = rows.length :=
  reindexGo_length rows _

theorem reindexGo_get_subject : ∀ (rows : List DRow) (cnt : Nat → Nat) (i : Nat)
    (hi : i < rows.length) (hi2 : i < (reindexGo cnt rows).length),
    ((reindexGo cnt rows).get ⟨i, hi2⟩).subject = (rows.get ⟨i, hi⟩).subject := by
  intro rows
  induction rows with
  | nil => intro cnt i hi _; exact absurd hi (Nat.not_lt_zero i)
  | cons r rs ih =>
    intro cnt i hi hi2
    cases i with
    | zero => rfl
    | succ n =>
      have hn : n < rs.length := Nat.lt_of_succ_lt_succ hi
      have hn2 : n < (reindexGo (fun s => if s = r.subject then cnt s + 1 else cnt s) rs).length := by
        rw [reindexGo_length]; exact hn
      exact ih (fun s => if s = r.subject then cnt s + 1 else cnt s) n hn hn2

theorem parseAcc_nil (a : Nat) : parseAcc a [] = a := rfl

theorem parseAcc_cons (a : Nat) (c : Char) (cs : List Char) :
    parseAcc a (c :: cs) = parseAcc (a * 10 + (c.toNat - 48)) cs := rfl

theorem parseAcc_append (xs : List Char) : ∀ (a : Nat) (ys : List Char),
    parseAcc a (xs ++ ys) = parseAcc (parseAcc a xs) ys := by
  induction xs with
  | nil => intro a ys; rfl
  | cons c cs ih => intro a ys; simp [parseAcc_cons, ih]

theorem natDecAux_zero (fuel : Nat) : natDecAux fuel 0 = [] := by
  cases fuel <;> simp [natDecAux]

theorem digitChar_toNat {d : Nat} (h : d < 10) : (Nat.digitChar d).toNat = 48 + d := by
  interval_cases d <;> decide

theorem parseAcc_natDecAux : ∀ (fuel n a : Nat), 0 < n → n ≤ fuel →
    parseAcc a (natDecAux fuel n) = a * 10 ^ (natDecAux fuel n).length + n := by
  intro fuel
  induction fuel with
  | zero => intro n a hn hle; omega
  | succ fuel ih =>
    intro n a hn hle
    have hne : ¬ n = 0 := Nat.pos_iff_ne_zero.mp hn
    simp only [natDecAux, hne, if_false]
    rw [parseAcc_append]
    have hd : n % 10 < 10 := Nat.mod_lt _ (by norm_num)
    by_cases h10 : n / 10 = 0
    · rw [h10, natDecAux_zero]
      simp only [parseAcc_nil, parseAcc_cons, digitChar_toNat hd]
      have hmn : n % 10 = n := by omega
      simp [List.length_append, hmn]
    · have hpos : 0 < n / 10 := Nat.pos_iff_ne_zero.mpr h10
      have hlt : n / 10 < n := Nat.div_lt_self hn (by norm_num)
      have hle2 : n / 10 ≤ fuel := by omega
      rw [ih (n / 10) a hpos hle2]
      simp only [parseAcc_nil, parseAcc_cons, digitChar_toNat hd]
      have hmod : 48 + n % 10 - 48 = n % 10 := by omega
      rw [hmod]
      have hsplit : 10 * (n / 10) + n % 10 = n := Nat.div_add_mod n 10
      simp [List.length_append, pow_succ]
      ring_nf
      omega

theorem parseAcc_zeros : ∀ (k : Nat), parseAcc 0 (List.replicate k '0') = 0 := by
  intro k
  induction k with
  | zero => rfl
  | succ k ih => simpa [List.replicate, parseAcc_cons] using ih

/-- Round trip: parsing the zero-padded decimal rendering of `n` recovers `n`.
This is the key fact behind collision-freedom of the derived output paths. -/
theorem parseAcc_zfill_natDec (w n : Nat) : parseAcc 0 (zfill w (natDec n)) = n := by
  unfold zfill
  rw [parseAcc_append, parseAcc_zeros]
  unfold natDec
  by_cases h : n = 0
  · subst h; rfl
  · have := parseAcc_natDecAux n n 0 (Nat.pos_iff_ne_zero.mpr h) (le_refl n)
    simp [h, this]

/-- Zero-padded decimal identifiers are injective for a fixed width. -/
theorem zfill_natDec_injective (w : Nat) {n m : Nat}
    (h : zfill w (natDec n) = zfill w (natDec m)) : n = m := by
  have hn := parseAcc_zfill_natDec w n
  have hm := parseAcc_zfill_natDec w m
  rw [h] at hn
  omega

theorem reindexGo_get_session : ∀ (rows : List DRow) (cnt : Nat → Nat) (i : Nat)
    (hi : i < rows.length) (hi2 : i < (reindexGo cnt rows).length),
    ((reindexGo cnt rows).get ⟨i, hi2⟩).session =
      cnt ((rows.get ⟨i, hi⟩).subject) +
        (rows.take i).countP (fun r => r.subject == (rows.get ⟨i, hi⟩).subject) + 1 := by
  intro rows
  induction rows with
  | nil => intro cnt i hi _; exact absurd hi (Nat.not_lt_zero i)
  | cons r rs ih =>
    intro cnt i hi hi2
    cases i with
    | zero => simp [reindexGo]
    | succ n =>
      have hn : n < rs.length := Nat.lt_of_succ_lt_succ hi
      have hn2 : n < (reindexGo (fun s => if s = r.subject then cnt s + 1 else cnt s) rs).length := by
        rw [reindexGo_length]; exact hn
      have hrec := ih (fun s => if s = r.subject then cnt s + 1 else cnt s) n hn hn2
      have hsub : (r :: rs).get ⟨n + 1, hi⟩ = rs.get ⟨n, hn⟩ := rfl
      have hstep : ((reindexGo cnt (r :: rs)).get ⟨n + 1, hi2⟩).session =
          ((reindexGo (fun s => if s = r.subject then cnt s + 1 else cnt s) rs).get
            ⟨n, hn2⟩).session := rfl
      rw [hstep, hrec, hsub, List.take_succ_cons, List.countP_cons]
      by_cases h : r.subject = (rs.get ⟨n, hn⟩).subject
      · rw [if_pos (by exact h.symm), if_pos (by exact beq_iff_eq.mpr h)]
        omega
      · rw [if_neg (fun hc => h hc.symm), if_neg (by simp only [beq_iff_eq]; exact h)]
        omega

theorem reindexGo_filter (s : Nat) : ∀ (rows : List DRow) (cnt : Nat → Nat),
    ((reindexGo cnt rows).filter (fun r => r.subject == s)).map (fun r => r.session) =
      List.range' (cnt s + 1) ((rows.filter (fun r => r.subject == s)).length) := by
  intro rows
  induction rows with
  | nil => intro cnt; simp [reindexGo]
  | cons r rs ih =>
    intro cnt
    have hupd : ({ r with session := cnt r.subject + 1 } : DRow).subject = r.subject := rfl
    by_cases h : r.subject = s
    · have hb : (r.subject == s) = true := beq_iff_eq.mpr h
      simp only [reindexGo, List.filter_cons, hupd, hb, if_true, List.map_cons,
        List.length_cons]
      rw [ih (fun s0 => if s0 = r.subject then cnt s0 + 1 else cnt s0)]
      rw [if_pos (by exact h.symm), h, List.range'_succ]
    · have hb : (r.subject == s) = false := by
        simp only [beq_eq_false_iff_ne, ne_eq]
        exact h
      simp only [reindexGo, List.filter_cons, hupd, hb, Bool.false_eq_true, if_false]
      rw [ih (fun s0 => if s0 = r.subject then cnt s0 + 1 else cnt s0)]
      rw [if_neg (fun hc => h hc.symm)]

theorem countP_take_lt {α : Type} (l : List α) (p : α → Bool) (i j : Nat)
    (hi : i < l.length) (hij : i < j) (hp : p (l.get ⟨i, hi⟩) = true) :
    (l.take i).countP p < (l.take j).countP p := by
  have hj : j = (i + 1) + (j - (i + 1)) := by omega
  rw [hj, List.take_add, List.countP_append]
  have hsucc : l.take (i + 1) = l.take i ++ [l.get ⟨i, hi⟩] := by
    rw [List.take_succ]
    congr 1
    rw [List.getElem?_eq_getElem hi]
    rfl
  rw [hsucc, List.countP_append]
  have hone : List.countP p [l.get ⟨i, hi⟩] = 1 := by
    rw [List.countP_cons, hp]
    rfl
  omega

theorem reindex_sessions_distinct (rows : List DRow) (i j : Nat)
    (hi : i < rows.length) (hj : j < rows.length) (hij : i ≠ j)
    (h2i : i < (reindexSessions rows).length) (h2j : j < (reindexSessions rows).length)
    (hsub : (rows.get ⟨i, hi⟩).subject = (rows.get ⟨j, hj⟩).subject) :
    ((reindexSessions rows).get ⟨i, h2i⟩).session ≠
      ((reindexSessions rows).get ⟨j, h2j⟩).session := by
  show ((reindexGo (fun _ => 0) rows).get ⟨i, h2i⟩).session ≠
    ((reindexGo (fun _ => 0) rows).get ⟨j, h2j⟩).session
  rw [reindexGo_get_session rows (fun _ => 0) i hi h2i,
    reindexGo_get_session rows (fun _ => 0) j hj h2j, hsub]
  rcases Nat.lt_or_ge i j with hlt | hge
  · have hcount := countP_take_lt rows (fun r => r.subject == (rows.get ⟨j, hj⟩).subject) i j hi
      hlt (beq_iff_eq.mpr hsub)
    omega
  · have hlt : j < i := by omega
    have hcount := countP_take_lt rows (fun r => r.subject == (rows.get ⟨j, hj⟩).subject) j i hj
      hlt (beq_iff_eq.mpr rfl)
    omega

theorem categoryCodes_length (subs : List String) : (categoryCodes subs).length = subs.length := by
  simp [categoryCodes]

theorem categoryCodes_get (subs : List String) (i : Nat) (hi : i < subs.length)
    (hi2 : i < (categoryCodes subs).length) :
    (categoryCodes subs).get ⟨i, hi2⟩ =
      (subs.dedup.insertionSort strLe).indexOf (subs.get ⟨i, hi⟩) := by
  simp [categoryCodes]

theorem categoryCodes_inj (subs : List String) (i j : Nat) (hi : i < subs.length)
    (hj : j < subs.length) (hne : subs.get ⟨i, hi⟩ ≠ subs.get ⟨j, hj⟩)
    (hi2 : i < (categoryCodes subs).length) (hj2 : j < (categoryCodes subs).length) :
    (categoryCodes subs).get ⟨i, hi2⟩ ≠ (categoryCodes subs).get ⟨j, hj2⟩ := by
  rw [categoryCodes_get subs i hi hi2, categoryCodes_get subs j hj hj2]
  intro heq
  apply hne
  have hmi : subs.get ⟨i, hi⟩ ∈ subs.dedup.insertionSort strLe := by
    rw [List.mem_insertionSort, List.mem_dedup]
    exact List.get_mem subs i hi
  have hmj : subs.get ⟨j, hj⟩ ∈ subs.dedup.insertionSort strLe := by
    rw [List.mem_insertionSort, List.mem_dedup]
    exact List.get_mem subs j hj
  have h1 := List.indexOf_get (List.indexOf_lt_length.mpr hmi)
  have h2 := List.indexOf_get (List.indexOf_lt_length.mpr hmj)
  rw [← h1, ← h2]
  congr 1
  exact Fin.ext heq

theorem applyCodes_length (rows : List PreRow) : (applyCodes rows).length = rows.length := by
  simp [applyCodes, categoryCodes]

theorem applyCodes_get_subject (rows : List PreRow) (i : Nat) (hi2 : i < (applyCodes rows).length)
    (hc : i < (categoryCodes (rows.map (fun r => r.subject))).length) :
    ((applyCodes rows).get ⟨i, hi2⟩).subject =
      (categoryCodes (rows.map (fun r => r.subject))).get ⟨i, hc⟩ := by
  simp [applyCodes, List.getElem_zipWith]

theorem canonicalRows_length (rows : List PreRow) :
    (canonicalRows rows).length = rows.length := by
  rw [canonicalRows, reindexSessions_length, applyCodes_length]

theorem canonicalRows_get_subject (rows : List PreRow) (i : Nat)
    (h1 : i < (canonicalRows rows).length) (h2 : i < (applyCodes rows).length)
    (hc : i < (categoryCodes (rows.map (fun r => r.subject))).length) :
    ((canonicalRows rows).get ⟨i, h1⟩).subject =
      (categoryCodes (rows.map (fun r => r.subject))).get ⟨i, hc⟩ := by
  have hstep : ((canonicalRows rows).get ⟨i, h1⟩).subject =
      ((applyCodes rows).get ⟨i, h2⟩).subject :=
    reindexGo_get_subject (applyCodes rows) (fun _ => 0) i h2 h1
  rw [hstep, applyCodes_get_subject rows i h2 hc]

theorem filter_key_orderedInsert (k : SortKey) (b : Desc) :
    ∀ (m : List Desc),
      (m.orderedInsert descRel b).filter (fun d => sortKey d == k) =
        if (sortKey b == k) = true then b :: m.filter (fun d => sortKey d == k)
        else m.filter (fun d => sortKey d == k) := by
  intro m
  induction m with
  | nil =>
    by_cases hb : (sortKey b == k) = true <;>
      simp [List.orderedInsert, List.filter_cons, hb]
  | cons y ys ih =>
    by_cases hr : descRel b y
    · simp only [List.orderedInsert, if_pos hr, List.filter_cons]
    · have hne : sortKey y ≠ sortKey b := by
        intro he
        exact hr (le_of_eq he.symm)
      simp only [List.orderedInsert, if_neg hr, List.filter_cons]
      by_cases hy : (sortKey y == k) = true
      · have hbk : (sortKey b == k) = false := by
          rw [beq_eq_false_iff_ne]
          intro hbe
          exact hne ((beq_iff_eq.mp hy).trans hbe.symm)
        simp [hy, hbk, ih]
      · by_cases hb : (sortKey b == k) = true <;> simp [hy, hb, ih]

theorem filter_key_insertionSort (k : SortKey) :
    ∀ (l : List Desc),
      (l.insertionSort descRel).filter (fun d => sortKey d == k) =
        l.filter (fun d => sortKey d == k) := by
  intro l
  induction l with
  | nil => rfl
  | cons b l ih =>
    simp only [List.insertionSort]
    rw [filter_key_orderedInsert k b (l.insertionSort descRel), ih, List.filter_cons]

theorem selectRecordings_nil (descs : List Desc) : selectRecordings descs [] = .ok [] := rfl

theorem selectRecordings_cons (descs : List Desc) (i : Nat) (is : List Nat) :
    selectRecordings descs (i :: is) =
      (match descs.get? i with
        | some d => Except.ok d
        | none => Except.error Err.keyError).bind
        fun b => (selectRecordings descs is).bind fun bs => Except.ok (b :: bs) := rfl

theorem selectRecordings_sublist_drop : ∀ (ids : List Nat) (descs sel : List Desc) (n : Nat),
    ids.Pairwise (· < ·) → (∀ i ∈ ids, n ≤ i) →
    selectRecordings descs ids = .ok sel → sel.Sublist (descs.drop n) := by
  intro ids
  induction ids with
  | nil =>
    intro descs sel n _ _ hsel
    rw [selectRecordings_nil] at hsel
    cases hsel
    exact List.nil_sublist _
  | cons i is ih =>
    intro descs sel n hpw hge hsel
    rw [selectRecordings_cons] at hsel
    cases hq : descs.get? i with
    | none => rw [hq] at hsel; simp [Except.bind] at hsel
    | some d =>
      rw [hq] at hsel
      cases hrest : selectRecordings descs is with
      | error e => rw [hrest] at hsel; simp [Except.bind] at hsel
      | ok bs =>
        rw [hrest] at hsel
        simp only [Except.bind] at hsel
        cases hsel
        obtain ⟨hpair, hpw2⟩ := List.pairwise_cons.mp hpw
        have hni : n ≤ i := hge i (List.mem_cons_self i is)
        have hid : i < descs.length := (List.get?_eq_some.mp hq).1
        have hbs : bs.Sublist (descs.drop (i + 1)) :=
          ih descs bs (i + 1) hpw2 (fun j hj => hpair j hj) hrest
        have hdropi : descs.drop i = d :: descs.drop (i + 1) := by
          rw [List.drop_eq_getElem_cons hid]
          congr 1
          have hg := (List.get?_eq_some.mp hq).2
          rw [← hg]
          rfl
        have hdecomp : descs.drop n =
            (descs.drop n).take (i - n) ++ (d :: descs.drop (i + 1)) := by
          conv_lhs => rw [← List.take_append_drop (i - n) (descs.drop n)]
          rw [List.drop_drop]
          have hin : n + (i - n) = i := by omega
          rw [hin, hdropi]
        rw [hdecomp]
        exact (hbs.cons₂ d).trans (List.sublist_append_right _ _)

theorem convertLoop_nil : convertLoop [] = .ok [] := rfl

theorem convertLoop_cons (r : DRow) (rs : List DRow) :
    convertLoop (r :: rs) =
      (convert_tuh_recording_to_bids r).bind
        fun s => (convertLoop rs).bind fun ss => Except.ok (s :: ss) := rfl

theorem convertOne_session {r : DRow} {sum : Summary}
    (h : convert_tuh_recording_to_bids r = .ok sum) : sum.session = r.session := by
  unfold convert_tuh_recording_to_bids at h
  split at h
  · split at h
    · split at h
      · simp at h
      · cases h
        rfl
    · simp at h
  · simp at h

theorem convertLoop_sessions : ∀ (rows : List DRow) (s : List Summary),
    convertLoop rows = .ok s → s.map Summary.session = rows.map DRow.session := by
  intro rows
  induction rows with
  | nil =>
    intro s h
    cases h
    rfl
  | cons r rs ih =>
    intro s h
    rw [convertLoop_cons] at h
    cases hr : convert_tuh_recording_to_bids r with
    | error e => rw [hr] at h; simp [Except.bind] at h
    | ok sum =>
      rw [hr] at h
      cases hrest : convertLoop rs with
      | error e => rw [hrest] at h; simp [Except.bind] at h
      | ok ss =>
        rw [hrest] at h
        simp only [Except.bind] at h
        cases h
        simp only [List.map_cons]
        rw [convertOne_session hr, ih ss hrest]

theorem convert_tuab_eq (rows : List DRow) (reset : Bool) :
    convert_tuab_to_bids rows false reset true =
      (concatCheck rows).bind
        fun rows1 => convertLoop (if reset then reindexSessions rows1 else rows1) := rfl

theorem hasAgeToken_cons (c : Char) (cs : Str) :
    hasAgeToken (c :: cs) = (hasAgePrefix (c :: cs) || hasAgeToken cs) := rfl

theorem findAgesAux_no_token : ∀ (fuel : Nat) (l : Str),
    hasAgeToken l = false → findAgesAux fuel l = [] := by
  intro fuel
  induction fuel with
  | zero => intro l _; rfl
  | succ fuel ih =>
    intro l h
    unfold findAgesAux
    split
    · rename_i rest
      rw [hasAgeToken_cons, Bool.or_eq_false_iff] at h
      have hdig : (leadDigits rest).isEmpty = true := by
        cases rest with
        | nil => rfl
        | cons d r2 =>
          have hp : hasAgePrefix ('A' :: 'g' :: 'e' :: ':' :: d :: r2) = d.isDigit := rfl
          rw [hp] at h
          simp [leadDigits, h.1]
      rw [if_pos hdig]
      exact ih _ h.2
    · rw [hasAgeToken_cons, Bool.or_eq_false_iff] at h
      exact ih _ h.2
    · rfl

theorem findGendersAux_class : ∀ (fuel : Nat) (l : Str) (c : Char),
    c ∈ findGendersAux fuel l → isClassFM c = true := by
  intro fuel
  induction fuel with
  | zero =>
    intro l c h
    simp [findGendersAux] at h
  | succ fuel ih =>
    intro l c h
    unfold findGendersAux at h
    split at h
    · split at h
      · rcases List.mem_cons.mp h with rfl | hm
        · rename_i hc
          simp only [Bool.and_eq_true] at hc
          exact hc.1.2
        · exact ih _ _ hm
      · exact ih _ _ h
    · cases h


theorem concatCheck_of_dedup_single {rows : List DRow} {x : Nat}
    (hd : (groupSizes rows).dedup = [x]) (hne : x ≠ 1) :
    concatCheck rows = .error .splitFileMergeNotImplemented := by
  unfold concatCheck
  rw [hd]
  exact if_neg hne

theorem concatCheck_of_dedup_one {rows : List DRow}
    (hd : (groupSizes rows).dedup = [1]) :
    concatCheck rows = .ok (rows.map fun r => { r with segment := "001" }) := by
  unfold concatCheck
  rw [hd]
  exact if_pos rfl

theorem concatCheck_of_dedup_multi {rows : List DRow} {x y : Nat} {t : List Nat}
    (hd : (groupSizes rows).dedup = x :: y :: t) :
    concatCheck rows = .error .ambiguousTruthValue := by
  unfold concatCheck
  rw [hd]

/-! ### Claim theorems -/

/-- C1: for every description frame and every subject, the session reset of
`convert_tuab_to_bids` (`reset_session_indices`) assigns that subject's
rows, read in frame (chronological) order, exactly the sessions
`1, 2, ..., k` with `k` the number of rows of the subject, regardless of
the input session numbers; in particular chronological sessions 3 and 7
become 1 and 2. -/
theorem session_reindex_contiguous (rows : List DRow) (s : Nat) :
    ((reindexSessions rows).filter (fun r => r.subject == s)).map (fun r => r.session) =
      List.range' 1 ((rows.filter (fun r => r.subject == s)).length) :=
  reindexGo_filter s rows (fun _ => 0)

/-- C2 counterexample: with concatenation enabled, a corpus whose
`(subject 0, session 1)` group holds the two distinct segments `0` and `1`
while subject 1 has a single-segment group makes `convert_tuab_to_bids`
raise numpy's ambiguous-truth-value `ValueError`, not the
`SplitFileMergeNotImplemented` (`NotImplementedError`) failure the claim
promises. -/
theorem split_merge_counterexample :
    (0, 1) ∈ groupKeys c2rows ∧
    (c2rows.filter (fun r => rowKey r == (0, 1))).map (fun r => r.segment) = ["0", "1"] ∧
    convert_tuab_to_bids c2rows false true true = .error .ambiguousTruthValue ∧
    convert_tuab_to_bids c2rows false true true ≠ .error .splitFileMergeNotImplemented := by
  decide

/-- C2 (amended): with concatenation enabled the converter never silently
picks a segment.  Whenever some `(subject, session)` group has at least two
entries, the corpus-level call fails before converting any recording, and
the failure follows the numpy comparison case by case: when the distinct
group sizes form the single value `c ≠ 1` (all groups share size `c`) the
call raises `SplitFileMergeNotImplemented`, and when two groups have
different sizes it raises the ambiguous-truth-value `ValueError`.  When
every group has exactly one segment, the check passes and every segment id
collapses to the canonical string `001`. -/
theorem split_merge_check (rows : List DRow) (reset : Bool) :
    ((∃ k ∈ groupKeys rows, 2 ≤ groupSize rows k) →
      ∃ e, convert_tuab_to_bids rows false reset true = .error e ∧
        (e = Err.splitFileMergeNotImplemented ∨ e = Err.ambiguousTruthValue)) ∧
    (∀ c, c ≠ 1 → (∃ k, k ∈ groupKeys rows) →
      (∀ k ∈ groupKeys rows, groupSize rows k = c) →
      convert_tuab_to_bids rows false reset true =
        .error Err.splitFileMergeNotImplemented) ∧
    ((∃ k1 ∈ groupKeys rows, ∃ k2 ∈ groupKeys rows,
        groupSize rows k1 ≠ groupSize rows k2) →
      convert_tuab_to_bids rows false reset true = .error Err.ambiguousTruthValue) ∧
    ((∀ k ∈ groupKeys rows, groupSize rows k = 1) →
      concatCheck rows = .ok (rows.map fun r => { r with segment := "001" }) ∧
      ∀ r ∈ rows.map (fun r => { r with segment := "001" }), r.segment = "001") := by
  refine ⟨?_, ?_, ?_, ?_⟩
  · rintro ⟨k, hk, hsize⟩
    have hmem : groupSize rows k ∈ groupSizes rows := List.mem_map_of_mem _ hk
    have hmem2 : groupSize rows k ∈ (groupSizes rows).dedup := List.mem_dedup.mpr hmem
    rw [convert_tuab_eq]
    rcases hd : (groupSizes rows).dedup with - | ⟨x, - | ⟨y, t⟩⟩
    · rw [hd] at hmem2
      cases hmem2
    · rw [hd] at hmem2
      have hx : groupSize rows k = x := List.mem_singleton.mp hmem2
      have hxne : x ≠ 1 := by omega
      refine ⟨Err.splitFileMergeNotImplemented, ?_, Or.inl rfl⟩
      rw [concatCheck_of_dedup_single hd hxne]
      rfl
    · refine ⟨Err.ambiguousTruthValue, ?_, Or.inr rfl⟩
      rw [concatCheck_of_dedup_multi hd]
      rfl
  · rintro c hc ⟨k0, hk0⟩ hall
    have hmem0 : groupSize rows k0 ∈ groupSizes rows := List.mem_map_of_mem _ hk0
    have hnil : groupSizes rows ≠ [] := List.ne_nil_of_mem hmem0
    have hall2 : ∀ x ∈ groupSizes rows, x = c := by
      intro x hx
      rcases List.mem_map.mp hx with ⟨k2, hk2, rfl⟩
      exact hall k2 hk2
    have hded := dedup_all_const c _ hnil hall2
    rw [convert_tuab_eq, concatCheck_of_dedup_single hded hc]
    rfl
  · rintro ⟨k1, hk1, k2, hk2, hnesz⟩
    have hm1 : groupSize rows k1 ∈ (groupSizes rows).dedup :=
      List.mem_dedup.mpr (List.mem_map_of_mem _ hk1)
    have hm2 : groupSize rows k2 ∈ (groupSizes rows).dedup :=
      List.mem_dedup.mpr (List.mem_map_of_mem _ hk2)
    rcases hd : (groupSizes rows).dedup with - | ⟨x, - | ⟨y, t⟩⟩
    · rw [hd] at hm1
      cases hm1
    · rw [hd] at hm1 hm2
      exact absurd ((List.mem_singleton.mp hm1).trans
        (List.mem_singleton.mp hm2).symm) hnesz
    · rw [convert_tuab_eq, concatCheck_of_dedup_multi hd]
      rfl
  · intro hall
    have hseg : ∀ r ∈ rows.map (fun r => { r with segment := "001" } : DRow → DRow),
        r.segment = "001" := by
      intro r hr
      rcases List.mem_map.mp hr with ⟨r0, -, rfl⟩
      rfl
    refine ⟨?_, hseg⟩
    cases hrows : rows with
    | nil => rfl
    | cons r0 rest =>
      have hmem0 : rowKey r0 ∈ (rows.map rowKey).dedup := by
        rw [List.mem_dedup, hrows]
        exact List.mem_map_of_mem _ (List.mem_cons_self r0 rest)
      have hne : groupSizes rows ≠ [] := by
        have hsz : groupSize rows (rowKey r0) ∈ groupSizes rows := List.mem_map_of_mem _ hmem0
        exact List.ne_nil_of_mem hsz
      have hall2 : ∀ x ∈ groupSizes rows, x = 1 := by
        intro x hx
        rcases List.mem_map.mp hx with ⟨k2, hk2, rfl⟩
        exact hall k2 hk2
      have hded := dedup_all_const 1 _ hne hall2
      rw [← hrows]
      exact concatCheck_of_dedup_one hded

/-- C2 witness: the theorem applied to the mixed corpus `c2rows` (general
failure and ambiguous-truth-value branches), to `uniformSplitRows` where
every group holds two segments (the `SplitFileMergeNotImplemented`
branch), and to `goodRows` (the collapse branch). -/
theorem split_merge_check_witness :
    (∃ e, convert_tuab_to_bids c2rows false true true = .error e ∧
      (e = Err.splitFileMergeNotImplemented ∨ e = Err.ambiguousTruthValue)) ∧
    convert_tuab_to_bids uniformSplitRows false true true =
      .error Err.splitFileMergeNotImplemented ∧
    convert_tuab_to_bids c2rows false true true = .error Err.ambiguousTruthValue ∧
    concatCheck goodRows = .ok (goodRows.map fun r => { r with segment := "001" }) :=
  ⟨(split_merge_check c2rows true).1 ⟨(0, 1), by decide, by decide⟩,
   (split_merge_check uniformSplitRows true).2.1 2 (by decide) ⟨(0, 1), by decide⟩
     (by decide),
   (split_merge_check c2rows true).2.2.1 ⟨(0, 1), by decide, (1, 1), by decide, by decide⟩,
   ((split_merge_check goodRows true).2.2.2 (by decide)).1⟩

/-- C3 counterexample: with a two-recording corpus whose first recording
carries the unrecognized reference token `_tcp_xx`, the corpus-level
conversion aborts with `UnknownReferenceScheme`: the second recording is
never converted and no summary table is produced, although the second
recording converts cleanly on its own. -/
theorem conversion_failure_not_isolated :
    convert_tuab_to_bids [badRefRow, goodRow] false true true =
      .error .unknownReferenceScheme ∧
    (∀ s, convert_tuab_to_bids [badRefRow, goodRow] false true true ≠ .ok s) ∧
    (convert_tuab_to_bids [goodRow] false true true).isOk = true := by
  refine ⟨by decide, ?_, by decide⟩
  intro s h
  rw [show convert_tuab_to_bids [badRefRow, goodRow] false true true =
    .error .unknownReferenceScheme from by decide] at h
  cases h

/-- C3 (amended): a conversion-time hard failure for one recording is not
isolated: the conversion loop has no handler, so the first failing
recording makes the whole loop (and the corpus call) return that failure
and no summary table is written; only when every recording converts does
the loop return a summary with exactly one row per recording. -/
theorem conversion_loop_aborts (rows : List DRow) :
    ((∃ r ∈ rows, (convert_tuh_recording_to_bids r).isOk = false) →
      (convertLoop rows).isOk = false) ∧
    ((∀ r ∈ rows, (convert_tuh_recording_to_bids r).isOk = true) →
      ∃ s, convertLoop rows = .ok s ∧ s.length = rows.length) :=
  ⟨mapExcept_isOk_false convert_tuh_recording_to_bids rows,
   mapExcept_ok_of_forall convert_tuh_recording_to_bids rows⟩

/-- C3 witness: the theorem applied to `[badRefRow]` (abort branch) and to
`[goodRow]` (complete-summary branch). -/
theorem conversion_loop_aborts_witness :
    (convertLoop [badRefRow]).isOk = false ∧
    ∃ s, convertLoop [goodRow] = .ok s ∧ s.length = 1 :=
  ⟨(conversion_loop_aborts [badRefRow]).1 ⟨badRefRow, by decide, by decide⟩,
   (conversion_loop_aborts [goodRow]).2 (by decide)⟩

/-- C4 counterexample: a subject with original sessions 3 and 7 is
converted with reindexing enabled; the persisted summary rows carry the
reindexed sessions 1 and 2, not the original 3 and 7 the claim promises. -/
theorem summary_session_counterexample :
    twoSessions.map (fun r => r.session) = [3, 7] ∧
    Except.map (List.map Summary.session) (convert_tuab_to_bids twoSessions false true true) =
      .ok [1, 2] ∧
    ([1, 2] : List Nat) ≠ [3, 7] := by
  decide

/-- C4 (amended): with session reindexing enabled, every summary row of a
successful conversion carries the recording's reindexed session id — the
conversion loop runs on the reindexed frame and copies its `session`
column verbatim into the summary. -/
theorem summary_carries_reindexed_session (rows rows1 : List DRow) (s : List Summary)
    (hc : concatCheck rows = .ok rows1)
    (hok : convert_tuab_to_bids rows false true true = .ok s) :
    s.map Summary.session = (reindexSessions rows1).map DRow.session := by
  rw [convert_tuab_eq, hc] at hok
  simp only [Except.bind, if_pos rfl] at hok
  exact convertLoop_sessions _ s hok

/-- C4 witness: the theorem applied to the concrete `twoSessions` corpus. -/
theorem summary_carries_reindexed_session_witness :
    twoSessionsSummary.map Summary.session =
      (reindexSessions (twoSessions.map fun r => { r with segment := "001" })).map
        DRow.session :=
  summary_carries_reindexed_session twoSessions
    (twoSessions.map fun r => { r with segment := "001" }) twoSessionsSummary
    (by decide) (by decide)

/-- C5 counterexample: the position-based restriction follows the order of
`recording_ids`, so the subset `{0, 1}` presented as `[1, 0]` reverses the
relative chronological order of the retained recordings, contradicting the
claim that every choice of subset leaves the relative order unchanged (the
class docstring itself warns about this). -/
theorem subset_order_counterexample :
    tuh_init [exFa, exFb] none = .ok [exDa, exDb] ∧
    tuh_init [exFa, exFb] (some [1, 0]) = .ok [exDb, exDa] ∧
    exDa ≠ exDb := by
  decide

/-- C5 (amended): the `recording_ids` restriction is applied to the already
sorted index (the slow per-recording loading runs only on what it returns),
and whenever the ids are listed in ascending order the selection is a
sublist of the sorted index, so the relative chronological order of the
retained recordings is preserved. -/
theorem subset_after_sort (files : List FileInfo) (descs : List Desc) (ids : List Nat)
    (sel : List Desc) (hidx : create_chronological_description files = .ok descs)
    (hasc : ids.Pairwise (· < ·)) (hsel : selectRecordings descs ids = .ok sel) :
    tuh_init files (some ids) = .ok sel ∧ sel.Sublist descs := by
  constructor
  · unfold tuh_init
    rw [hidx]
    simp only [Except.bind]
    exact hsel
  · have hdrop := selectRecordings_sublist_drop ids descs sel 0 hasc
      (fun i _ => Nat.zero_le i) hsel
    exact hdrop

/-- C5 witness: the theorem applied to the two-file corpus with the
ascending id list `[0, 1]`. -/
theorem subset_after_sort_witness :
    tuh_init [exFa, exFb] (some [0, 1]) = .ok [exDa, exDb] ∧
    List.Sublist [exDa, exDb] [exDa, exDb] :=
  subset_after_sort [exFa, exFb] [exDa, exDb] [0, 1] [exDa, exDb] (by decide)
    (by decide) (by decide)

/-- C6 counterexample: two files with identical six-column sort keys.  The
sort is stable with respect to the enumeration order of the files (pandas
uses a stable lexsort for multi-column keys), so enumeration `[train, eval]`
keeps that order even though the `eval` path is lexicographically smaller:
ties are not broken by filename lexical order, and reversing the
enumeration reverses the output, so the index order is not independent of
the order in which descriptors were produced. -/
theorem chronological_tiebreak_counterexample :
    create_chronological_description [fTrain, fEval] = .ok [dTrain, dEval] ∧
    create_chronological_description [fEval, fTrain] = .ok [dEval, dTrain] ∧
    dTrain ≠ dEval ∧ dEval.path.data < dTrain.path.data := by
  decide

/-- C6 (amended): the chronological sort is a stable sort by the six-column
key: the output is the stable insertion sort of the parsed descriptors, a
permutation of them, sorted by the key, and the rows of every fixed key
value appear in the output exactly in their input (glob enumeration) order
— which is therefore the tie-break order, not filename lexical order. -/
theorem chronological_sort_stable (files : List FileInfo) (parsed ds : List Desc)
    (k : SortKey) (hp : mapExcept parse_description_from_file_path files = .ok parsed)
    (hd : create_chronological_description files = .ok ds) :
    ds = parsed.insertionSort descRel ∧ ds.Perm parsed ∧ List.Sorted descRel ds ∧
    ds.filter (fun d => sortKey d == k) = parsed.filter (fun d => sortKey d == k) := by
  have hds : ds = parsed.insertionSort descRel := by
    unfold create_chronological_description at hd
    rw [hp] at hd
    have hd2 : Except.ok (parsed.insertionSort descRel) = Except.ok ds := hd
    injection hd2 with h2
    exact h2.symm
  subst hds
  exact ⟨rfl, List.perm_insertionSort descRel parsed,
    List.sorted_insertionSort descRel parsed, filter_key_insertionSort k parsed⟩

/-- C6 witness: the theorem applied to the tied two-file corpus at the tied
key value. -/
theorem chronological_sort_stable_witness :
    ([dTrain, dEval] : List Desc) = [dTrain, dEval].insertionSort descRel ∧
    List.Perm [dTrain, dEval] [dTrain, dEval] ∧
    List.Sorted descRel [dTrain, dEval] ∧
    [dTrain, dEval].filter (fun d => sortKey d == sortKey dTrain) =
      [dTrain, dEval].filter (fun d => sortKey d == sortKey dTrain) :=
  chronological_sort_stable [fTrain, fEval] [dTrain, dEval] [dTrain, dEval]
    (sortKey dTrain) (by decide) (by decide)

/-- C7 counterexample: a malformed stem (`aaa_s001`, two tokens) raises
`MalformedIdentity` for that file, but the corpus scan has no handler, so
the same failure aborts the whole scan: with a well-formed second file the
scan returns the error and produces no index, although the second file
alone scans fine — contradicting the claim that the scan of the rest of
the corpus continues. -/
theorem malformed_aborts_scan_counterexample :
    parse_description_from_file_path fBadTok = .error .malformedIdentity ∧
    create_chronological_description [fBadTok, exFb] = .error .malformedIdentity ∧
    (create_chronological_description [exFb]).isOk = true := by
  decide

/-- C7 (amended): a filename stem that does not split into exactly three
tokens raises a hard `MalformedIdentity` failure for that file, surfaced
rather than silently skipped — but the failure propagates out of the
corpus scan and aborts it; only when every file parses does the scan
return an index, with exactly one descriptor per file. -/
theorem malformed_identity_surfaced (files : List FileInfo) (fi : FileInfo) :
    ((fileTokens fi).length ≠ 3 →
      parse_description_from_file_path fi = .error .malformedIdentity) ∧
    ((∃ f ∈ files, (parse_description_from_file_path f).isOk = false) →
      (create_chronological_description files).isOk = false) ∧
    ((∀ f ∈ files, (parse_description_from_file_path f).isOk = true) →
      ∃ ds, create_chronological_description files = .ok ds ∧ ds.length = files.length) := by
  refine ⟨?_, ?_, ?_⟩
  · intro hlen
    unfold parse_description_from_file_path
    rcases htok : fileTokens fi with - | ⟨a, - | ⟨b, - | ⟨c, - | ⟨d, t⟩⟩⟩⟩
    · rfl
    · rfl
    · rfl
    · exact absurd (by rw [htok]; rfl) hlen
    · rfl
  · intro hex
    have hmo := mapExcept_isOk_false parse_description_from_file_path files hex
    cases hm : mapExcept parse_description_from_file_path files with
    | error e =>
      unfold create_chronological_description
      rw [hm]
      rfl
    | ok bs =>
      rw [hm] at hmo
      simp [Except.isOk, Except.toBool] at hmo
  · intro hall
    obtain ⟨bs, hbs, hlen⟩ := mapExcept_ok_of_forall parse_description_from_file_path files hall
    refine ⟨bs.insertionSort descRel, ?_, ?_⟩
    · unfold create_chronological_description
      rw [hbs]
      rfl
    · rw [List.length_insertionSort]
      exact hlen

/-- C7 witness: the theorem applied to the malformed file `fBadTok`, to the
two-file corpus containing it, and to the clean one-file corpus. -/
theorem malformed_identity_surfaced_witness :
    parse_description_from_file_path fBadTok = .error .malformedIdentity ∧
    (create_chronological_description [fBadTok, exFb]).isOk = false ∧
    ∃ ds, create_chronological_description [exFb] = .ok ds ∧ ds.length = 1 :=
  ⟨(malformed_identity_surfaced [fBadTok, exFb] fBadTok).1 (by decide),
   (malformed_identity_surfaced [fBadTok, exFb] fBadTok).2.1 ⟨fBadTok, by decide, by decide⟩,
   (malformed_identity_surfaced [exFb] fBadTok).2.2 (by decide)⟩

/-- C8 counterexample: channel-name normalization is not idempotent on every
name: removing `-REF` from `EEG-R-REFEF` manufactures a fresh `-REF`
occurrence, so a second pass strips it again. -/
theorem rename_not_idempotent_counterexample :
    rename_tuh_channels "EEG-R-REFEF" = "EEG-REF" ∧
    rename_tuh_channels (rename_tuh_channels "EEG-R-REFEF") = "EEG" ∧
    rename_tuh_channels (rename_tuh_channels "EEG-R-REFEF") ≠
      rename_tuh_channels "EEG-R-REFEF" := by
  decide

/-- C8 (amended): normalization is idempotent on every channel name whose
normalized form no longer contains `EEG` — which covers every name the
rewrite is meant for, since the rules strip the `EEG ` prefix — and every
upper/lower casing of the excluded non-EEG names `LOC`, `ROC`, `EKG1` is
returned unmodified. -/
theorem rename_idempotent_on_normalized (x : String) :
    (strContains (rename_tuh_channels x) "EEG" = false →
      rename_tuh_channels (rename_tuh_channels x) = rename_tuh_channels x) ∧
    (x ∈ exclusionCasings → rename_tuh_channels x = x) := by
  constructor
  · intro h
    generalize hy : rename_tuh_channels x = y at h ⊢
    unfold rename_tuh_channels
    simp only [h, Bool.false_eq_true, if_false]
    split <;> rfl
  · intro h
    simp only [exclusionCasings] at h
    fin_cases h <;> decide

/-- C8 witness: the theorem applied to `EEG FP1-REF` (idempotence branch)
and to `LOC` (exclusion branch). -/
theorem rename_idempotent_witness :
    rename_tuh_channels (rename_tuh_channels "EEG FP1-REF") =
      rename_tuh_channels "EEG FP1-REF" ∧
    rename_tuh_channels "LOC" = "LOC" :=
  ⟨(rename_idempotent_on_normalized "EEG FP1-REF").1 (by decide),
   (rename_idempotent_on_normalized "LOC").2 (by decide)⟩

/-- C9: every conversion task's output path is a function of its own row
(pipeline-variant root, zero-padded participant id, zero-padded session id,
run id), and after canonicalization (dense subject codes, then the
contiguous per-subject session reset) no two distinct tasks share a path:
within one root, rows with different subject codes differ in the
participant component (the zero-padded decimal rendering is injective) and
rows of one subject differ in the session component (reindexed sessions
are pairwise distinct); across different variant roots paths differ
trivially.  Distinct raw subject tokens, however collision-prone they
look, always receive distinct participant codes. -/
theorem task_paths_collision_free (rows : List PreRow) (root root2 : String) (i j : Nat)
    (h1 : i < (canonicalRows rows).length) (h2 : j < (canonicalRows rows).length)
    (hm1 : i < rows.length) (hm2 : j < rows.length) :
    (root ≠ root2 ∨ i ≠ j →
      outPath root ((canonicalRows rows).get ⟨i, h1⟩) ≠
        outPath root2 ((canonicalRows rows).get ⟨j, h2⟩)) ∧
    ((rows.get ⟨i, hm1⟩).subject ≠ (rows.get ⟨j, hm2⟩).subject →
      ((canonicalRows rows).get ⟨i, h1⟩).subject ≠
        ((canonicalRows rows).get ⟨j, h2⟩).subject) := by
  have hA1 : i < (applyCodes rows).length := by rw [applyCodes_length]; exact hm1
  have hA2 : j < (applyCodes rows).length := by rw [applyCodes_length]; exact hm2
  have hc1 : i < (categoryCodes (rows.map fun r => r.subject)).length := by
    rw [categoryCodes_length, List.length_map]; exact hm1
  have hc2 : j < (categoryCodes (rows.map fun r => r.subject)).length := by
    rw [categoryCodes_length, List.length_map]; exact hm2
  constructor
  · intro hor heq
    simp only [outPath, Prod.mk.injEq] at heq
    obtain ⟨hroot, hpid, hsid, -⟩ := heq
    rcases hor with hr | hij
    · exact hr hroot
    · by_cases hsubj : ((canonicalRows rows).get ⟨i, h1⟩).subject =
          ((canonicalRows rows).get ⟨j, h2⟩).subject
      · have hsi : ((canonicalRows rows).get ⟨i, h1⟩).subject =
            ((applyCodes rows).get ⟨i, hA1⟩).subject :=
          reindexGo_get_subject (applyCodes rows) (fun _ => 0) i hA1 h1
        have hsj : ((canonicalRows rows).get ⟨j, h2⟩).subject =
            ((applyCodes rows).get ⟨j, hA2⟩).subject :=
          reindexGo_get_subject (applyCodes rows) (fun _ => 0) j hA2 h2
        have hdist := reindex_sessions_distinct (applyCodes rows) i j hA1 hA2 hij h1 h2
          (by rw [← hsi, ← hsj]; exact hsubj)
        exact hdist (zfill_natDec_injective 3 hsid)
      · exact hsubj (zfill_natDec_injective 4 hpid)
  · intro hne
    have hgi := canonicalRows_get_subject rows i h1 hA1 hc1
    have hgj := canonicalRows_get_subject rows j h2 hA2 hc2
    rw [hgi, hgj]
    have hmi : i < (rows.map fun r => r.subject).length := by
      rw [List.length_map]; exact hm1
    have hmj : j < (rows.map fun r => r.subject).length := by
      rw [List.length_map]; exact hm2
    have hmapi : (rows.map fun r => r.subject).get ⟨i, hmi⟩ = (rows.get ⟨i, hm1⟩).subject := by
      simp
    have hmapj : (rows.map fun r => r.subject).get ⟨j, hmj⟩ = (rows.get ⟨j, hm2⟩).subject := by
      simp
    exact categoryCodes_inj (rows.map fun r => r.subject) i j hmi hmj
      (by rw [hmapi, hmapj]; exact hne) hc1 hc2

/-- C9 witness: the theorem applied to two recordings of one subject (path
distinctness via the session component) and to two subjects with
near-colliding raw tokens (distinct participant codes). -/
theorem task_paths_collision_free_witness :
    outPath "bids" ((canonicalRows prSameSubject).get ⟨0, by decide⟩) ≠
      outPath "bids" ((canonicalRows prSameSubject).get ⟨1, by decide⟩) ∧
    ((canonicalRows prTwoSubjects).get ⟨0, by decide⟩).subject ≠
      ((canonicalRows prTwoSubjects).get ⟨1, by decide⟩).subject :=
  ⟨(task_paths_collision_free prSameSubject "bids" "bids" 0 1 (by decide) (by decide)
      (by decide) (by decide)).1 (Or.inr (by decide)),
   (task_paths_collision_free prTwoSubjects "bids" "bids" 0 1 (by decide) (by decide)
      (by decide) (by decide)).2 (by decide)⟩

/-- C10 counterexample: the patient field consisting of a bar between two
spaces contains no whitespace-surrounded `F` or `M` token, yet the
extractor returns gender `|` rather than the claimed default `X`: the
character class `[F|M]` of the scan also matches the literal bar. -/
theorem age_gender_default_counterexample :
    claimedGenderTokenCount " | ".data = 0 ∧
    parse_age_and_gender_from_edf_header " | " = (-1, '|') ∧
    ('|' : Char) ≠ 'X' := by
  decide

/-- C10 (amended): for every ASCII patient field the extractor is total and
silently defaults: the age is `-1` unless the non-overlapping scan for the
age pattern finds exactly one match (in particular whenever no position of
the field starts such a match), and the gender is `X` unless the
non-overlapping scan for the gender pattern finds exactly one match — whose
captured character may be `F`, `M`, or the literal bar, since the class
`[F|M]` contains the bar.  The gender is always one of `X`, `F`, `M`, `|`. -/
theorem age_gender_defaults (p : String) :
    ((findAges p.data).length ≠ 1 → (parse_age_and_gender_from_edf_header p).1 = -1) ∧
    ((findGenders p.data).length ≠ 1 → (parse_age_and_gender_from_edf_header p).2 = 'X') ∧
    (hasAgeToken p.data = false → (parse_age_and_gender_from_edf_header p).1 = -1) ∧
    ((parse_age_and_gender_from_edf_header p).2 = 'X' ∨
      isClassFM (parse_age_and_gender_from_edf_header p).2 = true) := by
  refine ⟨?_, ?_, ?_, ?_⟩
  · intro h
    simp [parse_age_and_gender_from_edf_header, h]
  · intro h
    simp [parse_age_and_gender_from_edf_header, h]
  · intro h
    have hz : findAges p.data = [] := findAgesAux_no_token p.data.length p.data h
    simp [parse_age_and_gender_from_edf_header, hz]
  · by_cases hl : (findGenders p.data).length = 1
    · right
      rcases hg : findGenders p.data with - | ⟨c, t⟩
      · rw [hg] at hl
        simp at hl
      · have hmem : c ∈ findGendersAux p.data.length p.data := by
          rw [show findGendersAux p.data.length p.data = findGenders p.data from rfl, hg]
          exact List.mem_cons_self c t
        have hc : isClassFM c = true := findGendersAux_class p.data.length p.data c hmem
        have ht : t = [] := by
          rw [hg] at hl
          simpa using hl
        subst ht
        have hval : (parse_age_and_gender_from_edf_header p).2 = c := by
          simp [parse_age_and_gender_from_edf_header, hl, hg]
        rw [hval]
        exact hc
    · left
      simp [parse_age_and_gender_from_edf_header, hl]

/-- C10 witness: the theorem applied to a field with no demographic tokens. -/
theorem age_gender_defaults_witness :
    (parse_age_and_gender_from_edf_header "hello").1 = -1 ∧
    (parse_age_and_gender_from_edf_header "hello").2 = 'X' ∧
    ((parse_age_and_gender_from_edf_header "hello").2 = 'X' ∨
      isClassFM (parse_age_and_gender_from_edf_header "hello").2 = true) :=
  ⟨(age_gender_defaults "hello").2.2.1 (by decide),
   (age_gender_defaults "hello").2.1 (by decide),
   (age_gender_defaults "hello").2.2.2⟩

end TUAB
